import Mathlib

/-!
Verification of the SIH 2025 problem-statement scraper
(src/sih2025_scraper.py) against its natural-language specification.

Strings are modelled as List Char.  Python functions are translated into
executable Lean definitions: split_into_labeled_chunks, parse_footer_line
(the anchored regex PS_CODE_LINE_RE is hand-compiled into a deterministic
matcher, which is exact here because every subpattern boundary is
disjoint, so the greedy maximal-munch parse is the one the backtracking
engine returns), make_record, extract_blocks, the flat-text fallback
splitter and the deduplication loop of scrape_sih_ps.  The HTML tree is a
rose tree (mutual inductive Node / NodeList); a located text node is
represented as a zipper (ancestor stack, text content), which models the
parent chain that BeautifulSoup offers, and object-identity deduplication
is modelled by value equality of zippers (exact for every reachable input
of this program, since the candidate list is provably always empty).
All machine-relevant character handling is ASCII, matching the data the
scraper consumes.
-/

set_option maxHeartbeats 1000000
set_option maxRecDepth 100000

/-! ## Character utilities -/

/-- Python str.strip() default whitespace (ASCII part, which covers this
scraper's data): space, tab, newline, carriage return, vertical tab,
form feed.  The same set is what the regex class backslash-s matches. -/
def isPyWS (c : Char) : Bool :=
  c = ' ' || c = '\t' || c = '\n' || c = '\r' || c = '\x0b' || c = '\x0c'

/-- The character set of the Python call value.strip(" \n\r\t") used at
the end of split_into_labeled_chunks. -/
def isStrip2WS (c : Char) : Bool :=
  c = ' ' || c = '\n' || c = '\r' || c = '\t'

/-- ASCII lower-casing, modelling str.lower / re.IGNORECASE on the ASCII
data this scraper handles. -/
def lowerChar (c : Char) : Char :=
  if 'A' ≤ c ∧ c ≤ 'Z' then Char.ofNat (c.toNat + 32) else c

/-- The space-or-tab class of the regex [ \t]+ used by cleaned_text. -/
def isHT (c : Char) : Bool :=
  c = ' ' || c = '\t'

def isDigitCh (c : Char) : Bool :=
  '0' ≤ c && c ≤ '9'

/-- Word characters for the regex word boundary (ASCII part). -/
def isWordCh (c : Char) : Bool :=
  ('a' ≤ c && c ≤ 'z') || ('A' ≤ c && c ≤ 'Z') || ('0' ≤ c && c ≤ '9') || c = '_'

/-! ## List-of-char utilities -/

/-- Python str.strip() with no argument. -/
def pyStripL (l : List Char) : List Char :=
  ((l.dropWhile isPyWS).reverse.dropWhile isPyWS).reverse

/-- Python value.strip(" \n\r\t"). -/
def strip2 (l : List Char) : List Char :=
  ((l.dropWhile isStrip2WS).reverse.dropWhile isStrip2WS).reverse

/-- Python text.split("\n"). -/
def splitNl : List Char → List (List Char)
  | [] => [[]]
  | c :: rest =>
    if c = '\n' then [] :: splitNl rest
    else
      match splitNl rest with
      | [] => [[c]]
      | l :: ls => (c :: l) :: ls

/-- Python "\n".join(lines). -/
def joinNl : List (List Char) → List Char
  | [] => []
  | [l] => l
  | l :: ls => l ++ '\n' :: joinNl ls

/-- The line-normalisation opening split_into_labeled_chunks: strip every
line, drop blank lines. -/
def normLines (t : List Char) : List (List Char) :=
  ((splitNl t).map pyStripL).filter (fun l => !l.isEmpty)

/-- Collapse every run of spaces and tabs to a single space: the
re.sub of the regex class [ \t]+ with a space in cleaned_text. -/
def collapseSp : List Char → List Char
  | [] => []
  | c :: rest =>
    if isHT c then
      match collapseSp rest with
      | ' ' :: tl => ' ' :: tl
      | tl => ' ' :: tl
    else c :: collapseSp rest

/-- cleaned_text of the source, applied to the text already rendered from
the element (get_text with newline separator and strip is applied by the
rendering functions below): collapse space runs, then strip. -/
def cleaned_text (t : List Char) : List Char :=
  pyStripL (collapseSp t)

/-- Case-insensitive equality of two character lists. -/
def ciEqL (a b : List Char) : Bool :=
  a.map lowerChar == b.map lowerChar

/-- Does pat occur case-insensitively at the head of l? -/
def ciStartsWith : List Char → List Char → Bool
  | [], _ => true
  | _ :: _, [] => false
  | p :: ps, c :: cs => lowerChar c == lowerChar p && ciStartsWith ps cs

/-- Does pat occur case-insensitively anywhere in l?  This models the
re.compile(...).search used by find_all and the occurrence test for the
fallback split. -/
def ciOccursB (pat : List Char) : List Char → Bool
  | [] => pat.isEmpty
  | c :: rest => ciStartsWith pat (c :: rest) || ciOccursB pat rest

/-! ## Field vocabulary -/

/-- The fixed label vocabulary DETAIL_KEYS of the source. -/
def DETAIL_KEYS : List String :=
  [ "Problem Statement ID"
  , "Problem Statement Title"
  , "Description"
  , "Background"
  , "Expected Solution"
  , "Organization"
  , "Department"
  , "Category"
  , "Theme"
  , "Youtube Link"
  , "Dataset Link"
  , "Contact info" ]

/-! ## Field segmenter (split_into_labeled_chunks)

The regex search of the source for each key is the multiline pattern
anchoring the escaped key between a line start and a line end with
optional trailing whitespace, case-insensitively.  On the normalised text
(stripped non-blank lines joined by single newlines) this matches exactly
at the starting offset of the first line that is case-insensitively equal
to the key, which is what labelPosAux computes. -/

/-- Offset in the joined text of the first line case-insensitively equal
to key; off is the offset of the first line of the remaining list. -/
def labelPosAux (key : List Char) : Nat → List (List Char) → Option Nat
  | _, [] => none
  | off, l :: ls => if ciEqL l key then some off else labelPosAux key (off + l.length + 1) ls

/-- Index (not offset) of the first line satisfying the match, counting
from i. -/
def firstIdxA (key : List Char) : Nat → List (List Char) → Option Nat
  | _, [] => none
  | i, l :: ls => if ciEqL l key then some i else firstIdxA key (i + 1) ls

/-- Index of the first line of L case-insensitively equal to key. -/
def firstLineIdx (key : List Char) (L : List (List Char)) : Option Nat :=
  firstIdxA key 0 L

/-- Offset of line i in the newline-joined text of L. -/
def offAt : List (List Char) → Nat → Nat
  | _, 0 => 0
  | [], _ + 1 => 0
  | l :: ls, i + 1 => l.length + 1 + offAt ls i

/-- The key_positions list of the source before sorting: for each key of
DETAIL_KEYS in vocabulary order, its first-match offset, if any. -/
def keyPositions (t : List Char) : List (String × Nat) :=
  DETAIL_KEYS.filterMap (fun k => (labelPosAux k.data 0 (normLines t)).map (fun p => (k, p)))

/-- key_positions.sort(key=lambda x: x[1]) of the source. -/
def sortedKeyPositions (t : List Char) : List (String × Nat) :=
  List.insertionSort (fun a b => a.2 ≤ b.2) (keyPositions t)

/-- The compact text the segmenter slices: stripped non-blank lines
joined by single newlines. -/
def segText (t : List Char) : List Char :=
  joinNl (normLines t)

/-- Python text.find("\n", start): absolute index of the first newline at
or after start, or start itself when there is none (the source maps the
find result -1 back to start). -/
def endOfLineIdx (text : List Char) (start : Nat) : Nat :=
  match (text.drop start).findIdx? (fun c => c == '\n') with
  | some j => start + j
  | none => start

/-- One step of the re.sub replacing a newline, a bullet glyph and any
following whitespace run by newline-bullet-space.  Fuel-driven so that
the definition is structural and reduces inside the kernel; fuel at least
the length of the list makes the fuel-exhausted branch unreachable. -/
def bulletNormAux : Nat → List Char → List Char
  | _, [] => []
  | 0, l => l
  | f + 1, '\n' :: '•' :: rest => '\n' :: '•' :: ' ' :: bulletNormAux f (rest.dropWhile isPyWS)
  | f + 1, c :: rest => c :: bulletNormAux f rest

/-- The bullet-spacing cleanup re.sub of the source. -/
def bulletNorm (l : List Char) : List Char :=
  bulletNormAux l.length l

/-- The value the source assigns to a label whose line starts at start
when the next found label (or the end sentinel) starts at next: the slice
from the end of the label line to next, stripped, bullet-normalised,
stripped again with the smaller whitespace set. -/
def sliceVal (text : List Char) (start next : Nat) : List Char :=
  let e := endOfLineIdx text start
  strip2 (bulletNorm (pyStripL ((text.drop e).take (next - e))))

/-- The slicing loop of the source over the sorted position list with the
end sentinel at the text length. -/
def sliceChunks (text : List Char) : List (String × Nat) → List (String × List Char)
  | [] => []
  | (k, s) :: rest =>
    match rest with
    | [] => [(k, sliceVal text s text.length)]
    | (_, s2) :: _ => (k, sliceVal text s s2) :: sliceChunks text rest

/-- split_into_labeled_chunks of the source.  The resulting association
list has pairwise distinct keys, so it models the Python dict. -/
def split_into_labeled_chunks (blockText : List Char) : List (String × List Char) :=
  sliceChunks (segText blockText) (sortedKeyPositions blockText)

/-! ## Footer parser (PS_CODE_LINE_RE and parse_footer_line) -/

structure FooterMatch where
  list_category : List Char
  ps_code : List Char
  ideas_count : List Char
  list_theme : List Char
deriving DecidableEq

/-- Consume a case-insensitive occurrence of pat at the head of l,
returning the consumed original characters and the rest. -/
def matchCIToken : List Char → List Char → Option (List Char × List Char)
  | [], l => some ([], l)
  | _ :: _, [] => none
  | p :: ps, c :: cs =>
    if lowerChar c == lowerChar p then
      match matchCIToken ps cs with
      | some (t, r) => some (c :: t, r)
      | none => none
    else none

/-- The category alternation Software|Hardware of PS_CODE_LINE_RE. -/
def matchCat (l : List Char) : Option (List Char × List Char) :=
  match matchCIToken "Software".data l with
  | some r => some r
  | none => matchCIToken "Hardware".data l

/-- Greedy whitespace munch: the pair of the consumed run and the rest. -/
def munchWS (l : List Char) : List Char × List Char :=
  (l.takeWhile isPyWS, l.dropWhile isPyWS)

/-- The anchored match of PS_CODE_LINE_RE against one line (the source
uses re.match, so the pattern is anchored at the start and need not
consume the whole line).  Every greedy subpattern is followed only by
subpatterns that cannot consume the characters it takes, so maximal
munch is the unique backtracking result. -/
def psCodeLineMatch (l : List Char) : Option FooterMatch :=
  match matchCat l with
  | none => none
  | some (cat, r1) =>
    let w1 := munchWS r1
    if w1.1.isEmpty then none
    else
      match matchCIToken "SIH".data w1.2 with
      | none => none
      | some (sih, r3) =>
        let d5 := r3.take 5
        if d5.length = 5 && d5.all isDigitCh then
          let r4 := r3.drop 5
          let w2 := munchWS r4
          if w2.1.isEmpty then none
          else
            let ideas := w2.2.takeWhile isDigitCh
            let r6 := w2.2.dropWhile isDigitCh
            let r7 := (munchWS r6).2
            some { list_category := cat
                 , ps_code := sih ++ d5
                 , ideas_count := ideas
                 , list_theme := r7.takeWhile (fun c => !(c == '\n')) }
        else none

/-- parse_footer_line of the source: strip each line, return the groups
of the first matching line, each group stripped. -/
def footerScan : List (List Char) → Option FooterMatch
  | [] => none
  | l :: ls =>
    match psCodeLineMatch (pyStripL l) with
    | some m =>
      some { list_category := pyStripL m.list_category
           , ps_code := pyStripL m.ps_code
           , ideas_count := pyStripL m.ideas_count
           , list_theme := pyStripL m.list_theme }
    | none => footerScan ls

def parse_footer_line (blockText : List Char) : Option FooterMatch :=
  footerScan (splitNl blockText)

/-! ## Record assembly (ProblemStatement and make_record) -/

structure ProblemStatement where
  problem_statement_id : Option (List Char) := none
  problem_statement_title : Option (List Char) := none
  description : Option (List Char) := none
  background : Option (List Char) := none
  expected_solution : Option (List Char) := none
  organization : Option (List Char) := none
  department : Option (List Char) := none
  category : Option (List Char) := none
  theme : Option (List Char) := none
  youtube_link : Option (List Char) := none
  dataset_link : Option (List Char) := none
  contact_info : Option (List Char) := none
  ps_code : Option (List Char) := none
  ideas_count : Option (List Char) := none
  list_category : Option (List Char) := none
  list_theme : Option (List Char) := none
deriving DecidableEq

/-- Python falsiness of an optional string: absent or empty. -/
def optFalsy : Option (List Char) → Bool
  | none => true
  | some s => s.isEmpty

/-- make_record of the source; its argument is the get_text rendering of
the block (cleaned_text is applied here, as in the source). -/
def make_record (t : List Char) : ProblemStatement :=
  let raw := cleaned_text t
  let labeled := split_into_labeled_chunks raw
  let footer := parse_footer_line raw
  let rec0 : ProblemStatement :=
    { problem_statement_id := List.lookup "Problem Statement ID" labeled
    , problem_statement_title := List.lookup "Problem Statement Title" labeled
    , description := List.lookup "Description" labeled
    , background := List.lookup "Background" labeled
    , expected_solution := List.lookup "Expected Solution" labeled
    , organization := List.lookup "Organization" labeled
    , department := List.lookup "Department" labeled
    , category := List.lookup "Category" labeled
    , theme := List.lookup "Theme" labeled
    , youtube_link := List.lookup "Youtube Link" labeled
    , dataset_link := List.lookup "Dataset Link" labeled
    , contact_info := List.lookup "Contact info" labeled
    , ps_code := footer.map FooterMatch.ps_code
    , ideas_count := footer.map FooterMatch.ideas_count
    , list_category := footer.map FooterMatch.list_category
    , list_theme := footer.map FooterMatch.list_theme }
  let cat := if optFalsy rec0.category && !optFalsy rec0.list_category then rec0.list_category else rec0.category
  let th := if optFalsy rec0.theme && !optFalsy rec0.list_theme then rec0.list_theme else rec0.theme
  { rec0 with category := cat, theme := th }

/-- The emptiness filter of scrape_sih_ps: any of the sixteen fields is
truthy. -/
def recNonempty (r : ProblemStatement) : Bool :=
  !optFalsy r.problem_statement_id || !optFalsy r.problem_statement_title ||
  !optFalsy r.description || !optFalsy r.background ||
  !optFalsy r.expected_solution || !optFalsy r.organization ||
  !optFalsy r.department || !optFalsy r.category ||
  !optFalsy r.theme || !optFalsy r.youtube_link ||
  !optFalsy r.dataset_link || !optFalsy r.contact_info ||
  !optFalsy r.ps_code || !optFalsy r.ideas_count ||
  !optFalsy r.list_category || !optFalsy r.list_theme

/-! ## The HTML tree, text rendering, and extract_blocks -/

mutual
inductive Node where
  | text : List Char → Node
  | elem : NodeList → Node
inductive NodeList where
  | nil : NodeList
  | cons : Node → NodeList → NodeList
end

mutual
def nodeBeq : Node → Node → Bool
  | .text a, .text b => a == b
  | .elem a, .elem b => nodeListBeq a b
  | _, _ => false
def nodeListBeq : NodeList → NodeList → Bool
  | .nil, .nil => true
  | .cons a as, .cons b bs => nodeBeq a b && nodeListBeq as bs
  | _, _ => false
end

instance : BEq Node := ⟨nodeBeq⟩

mutual
/-- All text-node contents of a node in document order (the .strings of
BeautifulSoup). -/
def nodeStrings : Node → List (List Char)
  | .text s => [s]
  | .elem cs => listStrings cs
def listStrings : NodeList → List (List Char)
  | .nil => []
  | .cons n tl => nodeStrings n ++ listStrings tl
end

/-- get_text with the newline separator and strip=True: each descendant
string stripped, blanks dropped, joined by newlines. -/
def getTextStrip (n : Node) : List Char :=
  joinNl (((nodeStrings n).map pyStripL).filter (fun l => !l.isEmpty))

mutual
/-- Every text node of the tree as a zipper: the stack of its ancestors,
nearest first, together with its text.  This is what find_all with a
text pattern iterates over (the matching filter is applied separately),
and the ancestor stack is the parent chain the climbing loop would
follow. -/
def nodeTextZips : List Node → Node → List (List Node × List Char)
  | anc, .text s => [(anc, s)]
  | anc, .elem cs => listTextZips (Node.elem cs :: anc) cs
def listTextZips : List Node → NodeList → List (List Node × List Char)
  | _, .nil => []
  | anc, .cons n tl => nodeTextZips anc n ++ listTextZips anc tl
end

def isElemNode : Node → Bool
  | .elem _ => true
  | .text _ => false

/-- One iteration of the climbing loop of extract_blocks: move to the
parent only when the current object is a Tag and has a parent. -/
def climbStep : List Node × Node → List Node × Node
  | (anc, cur) =>
    match cur, anc with
    | Node.elem _, a :: rest => (rest, a)
    | _, _ => (anc, cur)

/-- The five fixed iterations of the climbing loop. -/
def climb5 (p : List Node × Node) : List Node × Node :=
  climbStep (climbStep (climbStep (climbStep (climbStep p))))

/-- The marker phrase of the source. -/
def markerC : List Char := "Problem Statement Details".data

/-- Keep the first occurrence of each candidate: the id-based
deduplication at the end of extract_blocks (object identity modelled by
value equality of zippers; the distinction cannot matter because the
candidate list is always empty, see the theorem on extract_blocks). -/
def dedupFirst : List (List Node × Node) → List (List Node × Node) → List (List Node × Node)
  | _, [] => []
  | seen, c :: cs =>
    if seen.contains c then dedupFirst seen cs
    else c :: dedupFirst (c :: seen) cs

/-- extract_blocks of the source: find the text nodes matching the
marker, climb five levels, keep the Tags, deduplicate. -/
def extract_blocks (soup : Node) : List (List Node × Node) :=
  let found := (nodeTextZips [] soup).filter (fun z => ciOccursB markerC z.2)
  let candidates := (found.map (fun z => climb5 (z.1, Node.text z.2))).filter (fun c => isElemNode c.2)
  dedupFirst [] candidates

/-! ## The fallback splitter of scrape_sih_ps

re.split with the case-insensitive word-bounded marker pattern.  The
scanner walks the text one character at a time; when the marker matches
at the current position (with a non-word or absent character on each
side) the part accumulated so far is emitted and the match is skipped
via a countdown, so the recursion stays structural. -/

def boundaryOkBefore : Option Char → Bool
  | none => true
  | some c => !isWordCh c

def boundaryOkAfter : List Char → Bool
  | [] => true
  | c :: _ => !isWordCh c

/-- The word-bounded case-insensitive marker match at the head of l,
given the character just before l (none at the start of the text). -/
def markerAt (prev : Option Char) (l : List Char) : Bool :=
  boundaryOkBefore prev && ciStartsWith markerC l && boundaryOkAfter (l.drop markerC.length)

/-- skip counts characters of a recognised marker still to consume; prev
is the previous character; acc the current part reversed. -/
def smAux : Nat → Option Char → List Char → List Char → List (List Char)
  | _ + 1, _, acc, [] => [acc.reverse]
  | skip + 1, _, acc, c :: rest => smAux skip (some c) acc rest
  | 0, _, acc, [] => [acc.reverse]
  | 0, prev, acc, c :: rest =>
    if markerAt prev (c :: rest) then
      acc.reverse :: smAux (markerC.length - 1) (some c) [] rest
    else smAux 0 (some c) (c :: acc) rest

/-- re.split of the word-bounded case-insensitive marker pattern. -/
def splitMarker (l : List Char) : List (List Char) :=
  smAux 0 none [] l

/-- The number of (non-overlapping, left-to-right) word-bounded
case-insensitive occurrences of the marker phrase. -/
def cmAux : Nat → Option Char → List Char → Nat
  | _ + 1, _, [] => 0
  | skip + 1, _, c :: rest => cmAux skip (some c) rest
  | 0, _, [] => 0
  | 0, prev, c :: rest =>
    if markerAt prev (c :: rest) then 1 + cmAux (markerC.length - 1) (some c) rest
    else cmAux 0 (some c) rest

def countMarkerOcc (l : List Char) : Nat :=
  cmAux 0 none l

/-- The synthetic Dummy blocks of the fallback branch: each part after
the first, re-anchored with the marker text and a newline (the Dummy
get_text returns exactly this stored text). -/
def fallbackTexts (full : List Char) : List (List Char) :=
  (splitMarker full).tail.map (fun p => markerC ++ '\n' :: p)

/-- The block-location stage of scrape_sih_ps, returning the get_text
rendering of each block: the containers found by extract_blocks, or on
an empty result the synthetic blocks split out of the flat text of the
body. -/
def locateBlockTexts (soup body : Node) : List (List Char) :=
  let blocks := extract_blocks soup
  if blocks.isEmpty then fallbackTexts (cleaned_text (getTextStrip body))
  else blocks.map (fun b => getTextStrip b.2)

/-! ## Deduplication (the tail of scrape_sih_ps) -/

/-- Decimal digit characters. -/
def digitChar : Nat → Char
  | 0 => '0' | 1 => '1' | 2 => '2' | 3 => '3' | 4 => '4'
  | 5 => '5' | 6 => '6' | 7 => '7' | 8 => '8' | _ => '9'

/-- Decimal rendering of a natural number (the f-string interpolation of
the source), fuel-driven so that it is structural; fuel at least n
suffices. -/
def natToStrAux : Nat → Nat → List Char
  | 0, n => [digitChar (n % 10)]
  | f + 1, n => if n < 10 then [digitChar n] else natToStrAux f (n / 10) ++ [digitChar (n % 10)]

def natToStr (n : Nat) : List Char :=
  natToStrAux n n

/-- The synthetic key the source builds with an f-string from the length
of the output list accumulated so far. -/
def unkKey (n : Nat) : List Char :=
  "UNK-".data ++ natToStr n

/-- The real part of the identity key: the stripped id when non-empty,
otherwise the stripped short code (possibly empty). -/
def dedupKeyReal (r : ProblemStatement) : List Char :=
  let a := pyStripL (r.problem_statement_id.getD [])
  if a.isEmpty then pyStripL (r.ps_code.getD []) else a

/-- The deduplication loop of scrape_sih_ps: seen is the key set, acc
the output accumulated so far (whose length feeds the synthetic key). -/
def dedupGo : List (List Char) → List ProblemStatement → List ProblemStatement → List ProblemStatement
  | _, acc, [] => acc
  | seen, acc, r :: rs =>
    let k0 := dedupKeyReal r
    let key := if k0.isEmpty then unkKey acc.length else k0
    if seen.contains key then dedupGo seen acc rs
    else dedupGo (key :: seen) (acc ++ [r]) rs

def dedupCode (rs : List ProblemStatement) : List ProblemStatement :=
  dedupGo [] [] rs

/-- Modelled from the spec (for the refinement comparison of claim C8):
keep the first record for each identity key, where the identity key is
the identifier if non-empty, else the short code if non-empty, else a
synthetic key unique to the record, so keyless records are always
kept. -/
def dedupSpecGo : List (List Char) → List ProblemStatement → List ProblemStatement
  | _, [] => []
  | seen, r :: rs =>
    let k := dedupKeyReal r
    if k.isEmpty then r :: dedupSpecGo seen rs
    else if seen.contains k then dedupSpecGo seen rs
    else r :: dedupSpecGo (k :: seen) rs

def dedupSpec (rs : List ProblemStatement) : List ProblemStatement :=
  dedupSpecGo [] rs

/-- scrape_sih_ps without the network fetch: soup is the parsed
document, body the rendering root of the fallback (soup.body when
present, else soup itself).  Every stage is a total function, so the
pipeline cannot raise; the per-block try/except of the source never
fires. -/
def scrape_sih_ps (soup body : Node) : List ProblemStatement :=
  dedupCode (((locateBlockTexts soup body).map make_record).filter recNonempty)

/-! ## Demonstration inputs used by concrete theorems -/

/-- A parsed document whose marker phrase occurs in a text node that has
five element ancestors. -/
def demoMarkerDoc : Node :=
  .elem (.cons (.elem (.cons (.elem (.cons (.elem (.cons (.elem (.cons
    (.text "Problem Statement Details".data) .nil)) .nil)) .nil)) .nil)) .nil)

/-- A document of three sibling text nodes that renders to a well-formed
record block via the fallback path. -/
def demoDoc3 : Node :=
  .elem (.cons (.text "Problem Statement Details".data)
    (.cons (.text "Problem Statement ID".data)
      (.cons (.text "25001".data) .nil)))

/-- A document with no occurrence of the marker phrase anywhere. -/
def demoPlainDoc : Node :=
  .elem (.cons (.text "hello".data) (.cons (.text "world".data) .nil))

/-- The block text of the explicit example of the specification. -/
def c1Block : List Char :=
  "Problem Statement Details\nProblem Statement ID\n25001\nProblem Statement Title\nDetect Anomalies\nSoftware SIH25001 3 HealthTech".data

/-! ## The block locator never emits a candidate -/

theorem climb5_text (anc : List Node) (s : List Char) :
    climb5 (anc, Node.text s) = (anc, Node.text s) := rfl

/-- The climbing loop of extract_blocks starts at the found text node,
which is not a Tag, so its guard fails all five times and the final Tag
check rejects the unchanged text node: no document ever yields a
candidate container. -/
theorem extract_blocks_eq_nil (soup : Node) : extract_blocks soup = [] := by
  have h : (((nodeTextZips [] soup).filter (fun z => ciOccursB markerC z.2)).map
      (fun z => climb5 (z.1, Node.text z.2))).filter (fun c => isElemNode c.2) = [] := by
    apply List.filter_eq_nil_iff.mpr
    intro a ha
    rcases List.mem_map.mp ha with ⟨w, _, rfl⟩
    simp [climb5_text, isElemNode]
  simp only [extract_blocks]
  rw [h]
  rfl

/-- C2 (code bug): the specification requires the primary block locator
to ascend five ancestor levels from each text node matching the marker
and emit the resulting container, at least one whenever a text node
matches.  In the code the climbing variable starts at the found text
node, which is never an instance of Tag, so the ascent guard fails in
all five iterations and the final Tag check rejects the unchanged text
node: extract_blocks returns the empty list for every document.  The
demonstration document has the marker phrase in a text node with five
element ancestors and still yields no candidate. -/
theorem c2_block_locator_bug :
    (∀ soup : Node, extract_blocks soup = []) ∧
    ((nodeTextZips [] demoMarkerDoc).filter (fun z => ciOccursB markerC z.2)).length = 1 ∧
    extract_blocks demoMarkerDoc = [] :=
  ⟨extract_blocks_eq_nil, by decide, extract_blocks_eq_nil demoMarkerDoc⟩

/-- C1 (counterexample): on the specification's block, the title is the
last label found, so its value slice runs to the end of the text and
swallows the footer line; the assembled title is not the bare string the
claim asserts. -/
theorem c1_counterexample :
    (make_record c1Block).problem_statement_title =
      some "Detect Anomalies\nSoftware SIH25001 3 HealthTech".data ∧
    (make_record c1Block).problem_statement_title ≠ some "Detect Anomalies".data := by
  constructor
  · decide
  · decide

/-- C1 (amended): the assembled record of the specification's block has
identifier 25001, short code SIH25001, idea count 3, category Software
and theme HealthTech copied from the footer, and a title consisting of
the title line together with the trailing footer line, every other field
absent. -/
theorem c1_amended_record :
    make_record c1Block =
      { problem_statement_id := some "25001".data
      , problem_statement_title := some "Detect Anomalies\nSoftware SIH25001 3 HealthTech".data
      , category := some "Software".data
      , theme := some "HealthTech".data
      , ps_code := some "SIH25001".data
      , ideas_count := some "3".data
      , list_category := some "Software".data
      , list_theme := some "HealthTech".data } := by
  decide

/-! ## C6: a block with no recognised label yields the empty mapping -/

theorem labelPosAux_eq_none (key : List Char) (L : List (List Char))
    (h : ∀ l ∈ L, ciEqL l key = false) : ∀ off, labelPosAux key off L = none := by
  induction L with
  | nil => intro off; rfl
  | cons l ls ih =>
    intro off
    have hl : ciEqL l key = false := h l (by simp)
    simp only [labelPosAux, hl, Bool.false_eq_true, if_false]
    exact ih (fun x hx => h x (by simp [hx])) _

theorem mem_normLines (t : List Char) (l : List Char) (h : l ∈ normLines t) :
    ∃ l0 ∈ splitNl t, l = pyStripL l0 := by
  have h1 : l ∈ (splitNl t).map pyStripL := List.mem_of_mem_filter h
  rcases List.mem_map.mp h1 with ⟨l0, hl0, rfl⟩
  exact ⟨l0, hl0, rfl⟩

/-- C6 (confirmed): when no line of the block, stripped, is
case-insensitively equal to any label of the vocabulary, the segmenter
finds no key position and returns the empty mapping. -/
theorem c6_no_labels_empty (t : List Char)
    (h : ∀ l ∈ splitNl t, ∀ k ∈ DETAIL_KEYS, ciEqL (pyStripL l) k.data = false) :
    split_into_labeled_chunks t = [] := by
  have hkp : keyPositions t = [] := by
    apply List.filterMap_eq_nil_iff.mpr
    intro k hk
    have hnone : labelPosAux k.data 0 (normLines t) = none := by
      apply labelPosAux_eq_none
      intro l hl
      rcases mem_normLines t l hl with ⟨l0, hl0, rfl⟩
      exact h l0 hl0 k hk
    simp [hnone]
  simp [split_into_labeled_chunks, sortedKeyPositions, hkp, List.insertionSort, sliceChunks]

theorem c6_no_labels_empty_witness :
    (∀ l ∈ splitNl "hello\nworld".data, ∀ k ∈ DETAIL_KEYS, ciEqL (pyStripL l) k.data = false) ∧
    split_into_labeled_chunks "hello\nworld".data = [] :=
  ⟨by decide, c6_no_labels_empty _ (by decide)⟩

/-! ## C3: the fallback splitter -/

theorem smAux_length_eq (l : List Char) : ∀ skip prev acc,
    (smAux skip prev acc l).length = cmAux skip prev l + 1 := by
  induction l with
  | nil => intro skip prev acc; cases skip <;> rfl
  | cons c rest ih =>
    intro skip prev acc
    cases skip with
    | succ n => simp only [smAux, cmAux]; exact ih n (some c) acc
    | zero =>
      by_cases h : markerAt prev (c :: rest) = true
      · simp only [smAux, cmAux, h, if_true, List.length_cons]
        rw [ih (markerC.length - 1) (some c) []]
        omega
      · rw [Bool.not_eq_true] at h
        simp only [smAux, cmAux, h, Bool.false_eq_true, if_false]
        exact ih 0 (some c) (c :: acc)

/-- C3 (confirmed): when the primary locator returns no block, the
located blocks are exactly the post-first segments of the flat body
text split on the word-bounded case-insensitive marker, each re-anchored
as marker, newline, segment, and their number equals the number of
marker occurrences in the flat text. -/
theorem c3_fallback_blocks (soup body : Node) (h : extract_blocks soup = []) :
    locateBlockTexts soup body =
      ((splitMarker (cleaned_text (getTextStrip body))).tail).map (fun p => markerC ++ '\n' :: p) ∧
    (locateBlockTexts soup body).length = countMarkerOcc (cleaned_text (getTextStrip body)) := by
  have h1 : locateBlockTexts soup body = fallbackTexts (cleaned_text (getTextStrip body)) := by
    simp [locateBlockTexts, h]
  refine ⟨h1, ?_⟩
  rw [h1]
  simp only [fallbackTexts, List.length_map, List.length_tail, splitMarker, countMarkerOcc]
  rw [smAux_length_eq]
  omega

theorem c3_fallback_blocks_witness :
    extract_blocks demoDoc3 = [] ∧
    (locateBlockTexts demoDoc3 demoDoc3 =
      ((splitMarker (cleaned_text (getTextStrip demoDoc3))).tail).map (fun p => markerC ++ '\n' :: p) ∧
     (locateBlockTexts demoDoc3 demoDoc3).length = countMarkerOcc (cleaned_text (getTextStrip demoDoc3))) ∧
    countMarkerOcc (cleaned_text (getTextStrip demoDoc3)) = 1 :=
  ⟨extract_blocks_eq_nil demoDoc3,
   c3_fallback_blocks demoDoc3 demoDoc3 (extract_blocks_eq_nil demoDoc3),
   by decide⟩

/-! ## C9: a document without the marker yields no record -/

theorem smAux_no_occ (l : List Char) : ∀ prev acc,
    ciOccursB markerC l = false → smAux 0 prev acc l = [acc.reverse ++ l] := by
  induction l with
  | nil => intro prev acc h; simp [smAux]
  | cons c rest ih =>
    intro prev acc h
    rw [ciOccursB, Bool.or_eq_false_iff] at h
    have hm : markerAt prev (c :: rest) = false := by
      simp [markerAt, h.1]
    simp only [smAux, hm, Bool.false_eq_true, if_false]
    rw [ih (some c) (c :: acc) h.2]
    simp

/-- C9 (confirmed): when the marker phrase occurs nowhere in the flat
text of the rendering root, the primary locator finds nothing (it never
does), the fallback split produces a single segment and hence no block,
and the scrape returns the empty record list; the whole pipeline is a
total function, so no exception can arise. -/
theorem c9_no_marker_empty (soup body : Node)
    (h : ciOccursB markerC (cleaned_text (getTextStrip body)) = false) :
    scrape_sih_ps soup body = [] := by
  have hb : locateBlockTexts soup body = [] := by
    simp only [locateBlockTexts, extract_blocks_eq_nil, List.isEmpty_nil, if_true,
      fallbackTexts, splitMarker]
    rw [smAux_no_occ _ none [] h]
    rfl
  simp [scrape_sih_ps, hb, dedupCode, dedupGo]

theorem c9_no_marker_empty_witness :
    ciOccursB markerC (cleaned_text (getTextStrip demoPlainDoc)) = false ∧
    scrape_sih_ps demoPlainDoc demoPlainDoc = [] :=
  ⟨by decide, c9_no_marker_empty demoPlainDoc demoPlainDoc (by decide)⟩

/-! ## C10: every emitted record has a truthy field -/

theorem mem_of_mem_dedupGo : ∀ (rs : List ProblemStatement) (seen : List (List Char))
    (acc : List ProblemStatement) (r : ProblemStatement),
    r ∈ dedupGo seen acc rs → r ∈ acc ∨ r ∈ rs := by
  intro rs
  induction rs with
  | nil => intro seen acc r h; exact Or.inl h
  | cons x xs ih =>
    intro seen acc r h
    simp only [dedupGo] at h
    by_cases hc : (seen.contains (if (dedupKeyReal x).isEmpty then unkKey acc.length else dedupKeyReal x)) = true
    · rw [if_pos hc] at h
      rcases ih _ _ _ h with h1 | h1
      · exact Or.inl h1
      · exact Or.inr (by simp [h1])
    · rw [if_neg hc] at h
      rcases ih _ _ _ h with h1 | h1
      · rcases List.mem_append.mp h1 with h2 | h2
        · exact Or.inl h2
        · exact Or.inr (by simp at h2; simp [h2])
      · exact Or.inr (by simp [h1])

theorem lookup_val_falsy : ∀ (labeled : List (String × List Char)) (k : String),
    (∀ p ∈ labeled, p.2 = []) → optFalsy (List.lookup k labeled) = true := by
  intro labeled
  induction labeled with
  | nil => intro k h; rfl
  | cons p ps ih =>
    intro k h
    obtain ⟨k0, v0⟩ := p
    have hv : v0 = [] := h (k0, v0) (by simp)
    by_cases hk : (k == k0) = true
    · simp only [List.lookup, hk, hv]; rfl
    · rw [Bool.not_eq_true] at hk
      simp only [List.lookup, hk]
      exact ih k (fun q hq => h q (by simp [hq]))

/-- C10 (confirmed): a record reaches the output only through the
truthiness filter, so every scraped record has at least one field that
is present and non-empty; and a block whose recognised labels all carry
empty values and whose footer line does not match assembles to a record
with no truthy field, which the filter drops. -/
theorem c10_nonempty_invariant :
    (∀ (soup body : Node) (r : ProblemStatement), r ∈ scrape_sih_ps soup body →
      recNonempty r = true) ∧
    (∀ t : List Char, (∀ p ∈ split_into_labeled_chunks (cleaned_text t), p.2 = []) →
      parse_footer_line (cleaned_text t) = none → recNonempty (make_record t) = false) := by
  constructor
  · intro soup body r hr
    have h1 : r ∈ ((locateBlockTexts soup body).map make_record).filter recNonempty := by
      rcases mem_of_mem_dedupGo _ _ _ _ hr with h | h
      · exact absurd h (List.not_mem_nil r)
      · exact h
    exact List.of_mem_filter h1
  · intro t hlab hfoot
    have hfal : ∀ k : String,
        optFalsy (List.lookup k (split_into_labeled_chunks (cleaned_text t))) = true :=
      fun k => lookup_val_falsy _ k hlab
    have hnone : optFalsy none = true := rfl
    simp [make_record, hfoot, recNonempty, hfal, hnone]

/-- The record produced by the fallback path on the demonstration
document of three text nodes. -/
def demoRec : ProblemStatement :=
  make_record "Problem Statement Details\n\nProblem Statement ID\n25001".data

theorem c10_nonempty_invariant_witness :
    demoRec ∈ scrape_sih_ps demoDoc3 demoDoc3 ∧ recNonempty demoRec = true ∧
    (∀ p ∈ split_into_labeled_chunks (cleaned_text "hello".data), p.2 = []) ∧
    parse_footer_line (cleaned_text "hello".data) = none ∧
    recNonempty (make_record "hello".data) = false :=
  ⟨by decide, c10_nonempty_invariant.1 demoDoc3 demoDoc3 demoRec (by decide),
   by decide, by decide, c10_nonempty_invariant.2 "hello".data (by decide) (by decide)⟩
/-! ## C5: the footer line pattern -/

theorem matchCIToken_of_maps : ∀ (pat tok rest : List Char),
    tok.map lowerChar = pat.map lowerChar →
    matchCIToken pat (tok ++ rest) = some (tok, rest) := by
  intro pat
  induction pat with
  | nil =>
    intro tok rest h
    have h0 : tok = [] := by simpa using h
    subst h0; rfl
  | cons p ps ih =>
    intro tok rest h
    cases tok with
    | nil => simp at h
    | cons c cs =>
      simp only [List.map_cons, List.cons.injEq] at h
      obtain ⟨h1, h2⟩ := h
      simp only [List.cons_append, matchCIToken, h1, beq_self_eq_true, if_true]
      rw [List.append_eq, ih cs rest h2]

theorem matchCIToken_head_ne (p c : Char) (ps cs : List Char)
    (h : lowerChar c ≠ lowerChar p) : matchCIToken (p :: ps) (c :: cs) = none := by
  simp [matchCIToken, h]

theorem matchCat_eq (tok rest : List Char)
    (htok : tok.map lowerChar = "software".data ∨ tok.map lowerChar = "hardware".data) :
    matchCat (tok ++ rest) = some (tok, rest) := by
  rcases htok with h | h
  · have hs : matchCIToken "Software".data (tok ++ rest) = some (tok, rest) := by
      apply matchCIToken_of_maps
      rw [h]; decide
    simp [matchCat, hs]
  · have h0 : matchCIToken "Software".data (tok ++ rest) = none := by
      cases tok with
      | nil => rw [show ("hardware".data : List Char) = 'h' :: "ardware".data from rfl] at h; simp at h
      | cons c cs =>
        apply matchCIToken_head_ne
        rw [show ("hardware".data : List Char) = 'h' :: "ardware".data from rfl] at h
        simp only [List.map_cons, List.cons.injEq] at h
        rw [h.1]; decide
    have hh : matchCIToken "Hardware".data (tok ++ rest) = some (tok, rest) := by
      apply matchCIToken_of_maps
      rw [h]; decide
    simp [matchCat, h0, hh]

theorem takeWhile_append_of_all {p : Char → Bool} : ∀ (l1 : List Char) (c : Char) (l2 : List Char),
    (∀ x ∈ l1, p x = true) → p c = false →
    ((l1 ++ c :: l2).takeWhile p = l1 ∧ (l1 ++ c :: l2).dropWhile p = c :: l2) := by
  intro l1
  induction l1 with
  | nil => intro c l2 h hc; constructor <;> simp [List.takeWhile_cons, List.dropWhile_cons, hc]
  | cons x xs ih =>
    intro c l2 h hc
    have hx := h x (by simp)
    obtain ⟨h1, h2⟩ := ih c l2 (fun y hy => h y (by simp [hy])) hc
    constructor
    · simp [List.takeWhile_cons, hx, h1]
    · simp [List.dropWhile_cons, hx, h2]

theorem takeWhile_all_digits : ∀ (ds : List Char), (∀ c ∈ ds, isDigitCh c = true) →
    ds.takeWhile isDigitCh = ds ∧ ds.dropWhile isDigitCh = [] := by
  intro ds
  induction ds with
  | nil => intro h; constructor <;> rfl
  | cons d rest ih =>
    intro h
    have hd := h d (by simp)
    obtain ⟨h1, h2⟩ := ih (fun y hy => h y (by simp [hy]))
    constructor
    · simp [List.takeWhile_cons, hd, h1]
    · simp [List.dropWhile_cons, hd, h2]

theorem lowerChar_of_ws (c : Char) (h : isPyWS c = true) : lowerChar c = c := by
  simp only [isPyWS, Bool.or_eq_true, decide_eq_true_eq] at h
  rcases h with ((((h | h) | h) | h) | h) | h <;> subst h <;> decide

theorem not_ws_of_lower_s (c : Char) (h : lowerChar c = 's') : isPyWS c = false := by
  by_contra hc
  rw [Bool.not_eq_false] at hc
  rw [lowerChar_of_ws c hc] at h
  subst h
  exact absurd hc (by decide)

theorem not_ws_of_digit (c : Char) (h : isDigitCh c = true) : isPyWS c = false := by
  by_contra hc
  rw [Bool.not_eq_false] at hc
  simp only [isPyWS, Bool.or_eq_true, decide_eq_true_eq] at hc
  rcases hc with ((((h1 | h1) | h1) | h1) | h1) | h1 <;> subst h1 <;> exact absurd h (by decide)

theorem munchWS_split (l1 : List Char) (c : Char) (l2 : List Char)
    (h1 : ∀ x ∈ l1, isPyWS x = true) (hc : isPyWS c = false) :
    munchWS (l1 ++ c :: l2) = (l1, c :: l2) := by
  obtain ⟨ht, hd⟩ := takeWhile_append_of_all l1 c l2 h1 hc
  simp [munchWS, ht, hd]

theorem munchWS_split2 (l1 l2 : List Char) (h1 : ∀ x ∈ l1, isPyWS x = true)
    (hc : ∃ c cs, l2 = c :: cs ∧ isPyWS c = false) : munchWS (l1 ++ l2) = (l1, l2) := by
  obtain ⟨c, cs, rfl, hcw⟩ := hc
  exact munchWS_split l1 c cs h1 hcw

theorem psCode_front (tok sp sih d5 X : List Char)
    (htok : tok.map lowerChar = "software".data ∨ tok.map lowerChar = "hardware".data)
    (hsp : sp ≠ []) (hspc : ∀ c ∈ sp, c = ' ')
    (hsih : sih.map lowerChar = "sih".data)
    (hd5len : d5.length = 5) (hd5dig : ∀ c ∈ d5, isDigitCh c = true) :
    psCodeLineMatch (tok ++ sp ++ sih ++ d5 ++ X) =
      (if ((munchWS X).1).isEmpty then none
       else
         some { list_category := tok, ps_code := sih ++ d5
              , ideas_count := ((munchWS X).2).takeWhile isDigitCh
              , list_theme := ((munchWS (((munchWS X).2).dropWhile isDigitCh)).2).takeWhile
                  (fun c => !(c == '\n')) }) := by
  have hspws : ∀ c ∈ sp, isPyWS c = true := by
    intro c hc
    rw [hspc c hc]; decide
  obtain ⟨s0, sihRest, hsihEq, hs0⟩ : ∃ s0 rest0, sih = s0 :: rest0 ∧ lowerChar s0 = 's' := by
    cases sih with
    | nil => exact absurd hsih (by decide)
    | cons c cs =>
      refine ⟨c, cs, rfl, ?_⟩
      rw [show ("sih".data : List Char) = 's' :: "ih".data from rfl] at hsih
      simp only [List.map_cons, List.cons.injEq] at hsih
      exact hsih.1
  have hs0ws : isPyWS s0 = false := not_ws_of_lower_s s0 hs0
  have hspE : sp.isEmpty = false := by
    cases sp with
    | nil => exact absurd rfl hsp
    | cons a as => rfl
  rw [List.append_assoc, List.append_assoc, List.append_assoc]
  have hmw : munchWS (sp ++ (sih ++ (d5 ++ X))) = (sp, sih ++ (d5 ++ X)) :=
    munchWS_split2 _ _ hspws ⟨s0, sihRest ++ (d5 ++ X), by rw [hsihEq]; rfl, hs0ws⟩
  have hSIH : matchCIToken "SIH".data (sih ++ (d5 ++ X)) = some (sih, d5 ++ X) := by
    apply matchCIToken_of_maps
    rw [hsih]; decide
  have htk : (d5 ++ X).take 5 = d5 := by rw [← hd5len]; exact List.take_left d5 X
  have hdp : (d5 ++ X).drop 5 = X := by rw [← hd5len]; exact List.drop_left d5 X
  have hall : d5.all isDigitCh = true := List.all_eq_true.mpr hd5dig
  simp only [psCodeLineMatch, matchCat_eq tok _ htok, hmw, hspE, Bool.false_eq_true, if_false,
    hSIH, htk, hdp, hd5len, hall, Bool.and_true]
  simp

/-- C5 (amended): for a line consisting of the category token (either
casing), one or more spaces and a code of shape SIH plus five digits
with nothing further, the pattern does NOT match, because it demands at
least one whitespace character after the code; when the line continues
with one or more spaces and a run of digits, it matches with category
the token, short code the code, idea count the digit run and empty
theme. -/
theorem c5_amended_footer (tok sp sih d5 : List Char)
    (htok : tok.map lowerChar = "software".data ∨ tok.map lowerChar = "hardware".data)
    (hsp : sp ≠ []) (hspc : ∀ c ∈ sp, c = ' ')
    (hsih : sih.map lowerChar = "sih".data)
    (hd5len : d5.length = 5) (hd5dig : ∀ c ∈ d5, isDigitCh c = true) :
    psCodeLineMatch (tok ++ sp ++ sih ++ d5) = none ∧
    (∀ sp2 ds : List Char, sp2 ≠ [] → (∀ c ∈ sp2, c = ' ') → ds ≠ [] →
      (∀ c ∈ ds, isDigitCh c = true) →
      psCodeLineMatch (tok ++ sp ++ sih ++ d5 ++ sp2 ++ ds) =
        some { list_category := tok, ps_code := sih ++ d5, ideas_count := ds, list_theme := [] }) := by
  constructor
  · have h := psCode_front tok sp sih d5 [] htok hsp hspc hsih hd5len hd5dig
    rw [List.append_nil] at h
    rw [h]
    rfl
  · intro sp2 ds hsp2 hspc2 hds hdsdig
    have h := psCode_front tok sp sih d5 (sp2 ++ ds) htok hsp hspc hsih hd5len hd5dig
    rw [show tok ++ sp ++ sih ++ d5 ++ sp2 ++ ds = tok ++ sp ++ sih ++ d5 ++ (sp2 ++ ds) by
      rw [List.append_assoc]]
    rw [h]
    obtain ⟨dd, dds, hdsEq, hdw⟩ : ∃ dd dds, ds = dd :: dds ∧ isPyWS dd = false := by
      cases ds with
      | nil => exact absurd rfl hds
      | cons a as => exact ⟨a, as, rfl, not_ws_of_digit a (hdsdig a (by simp))⟩
    have hspws2 : ∀ c ∈ sp2, isPyWS c = true := by
      intro c hc
      rw [hspc2 c hc]; decide
    have hmw : munchWS (sp2 ++ ds) = (sp2, ds) :=
      munchWS_split2 _ _ hspws2 ⟨dd, dds, hdsEq, hdw⟩
    have hspE2 : sp2.isEmpty = false := by
      cases sp2 with
      | nil => exact absurd rfl hsp2
      | cons a as => rfl
    obtain ⟨h1, h2⟩ := takeWhile_all_digits ds hdsdig
    simp only [hmw, hspE2, Bool.false_eq_true, if_false, h1, h2]
    rfl

/-- C5 (counterexample): the claim asserts that the bare line matches
with empty idea count and theme; in fact the pattern rejects it. -/
theorem c5_counterexample :
    psCodeLineMatch "Software SIH25001".data = none ∧
    parse_footer_line "Software SIH25001".data = none := by
  constructor <;> decide

theorem c5_amended_footer_witness :
    psCodeLineMatch "Software SIH25001".data = none ∧
    psCodeLineMatch "Software SIH25001 7".data =
      some { list_category := "Software".data, ps_code := "SIH25001".data
           , ideas_count := "7".data, list_theme := [] } := by
  have h := c5_amended_footer "Software".data [' '] "SIH".data "25001".data
    (Or.inl (by decide)) (by decide) (by decide) (by decide) (by decide) (by decide)
  constructor
  · have h0 := h.1
    rw [show ("Software SIH25001".data : List Char) =
      "Software".data ++ [' '] ++ "SIH".data ++ "25001".data from rfl]
    exact h0
  · have h0 := h.2 [' '] ['7'] (by decide) (by decide) (by decide) (by decide)
    rw [show ("Software SIH25001 7".data : List Char) =
      "Software".data ++ [' '] ++ "SIH".data ++ "25001".data ++ [' '] ++ ['7'] from rfl]
    rw [h0]
    decide
/-! ## C4: characterisation of the slicing loop -/

/-- The start offset of the next found label after index i in the sorted
position list, or the length of the text for the last one: the end
sentinel of the source. -/

def nextBound (text : List Char) (ps : List (String × Nat)) (i : Nat) : Nat :=
  match ps[i + 1]? with
  | some e => e.2
  | none => text.length

theorem sliceChunks_cons_cons (text : List Char) (k : String) (s : Nat) (k2 : String)
    (s2 : Nat) (qs : List (String × Nat)) :
    sliceChunks text ((k, s) :: (k2, s2) :: qs) =
      (k, sliceVal text s s2) :: sliceChunks text ((k2, s2) :: qs) := rfl

theorem sliceChunks_single (text : List Char) (k : String) (s : Nat) :
    sliceChunks text [(k, s)] = [(k, sliceVal text s text.length)] := rfl

theorem sliceChunks_length (text : List Char) : ∀ ps, (sliceChunks text ps).length = ps.length := by
  intro ps
  induction ps with
  | nil => rfl
  | cons p rest ih =>
    obtain ⟨k, s⟩ := p
    cases rest with
    | nil => rfl
    | cons q qs =>
      obtain ⟨k2, s2⟩ := q
      rw [sliceChunks_cons_cons, List.length_cons, List.length_cons, ih]

theorem sliceChunks_map_fst (text : List Char) :
    ∀ ps, (sliceChunks text ps).map Prod.fst = ps.map Prod.fst := by
  intro ps
  induction ps with
  | nil => rfl
  | cons p rest ih =>
    obtain ⟨k, s⟩ := p
    cases rest with
    | nil => rfl
    | cons q qs =>
      obtain ⟨k2, s2⟩ := q
      rw [sliceChunks_cons_cons, List.map_cons, List.map_cons, ih]

theorem sliceChunks_get (text : List Char) :
    ∀ (ps : List (String × Nat)) (i : Nat) (hi : i < ps.length)
    (hj : i < (sliceChunks text ps).length),
    (sliceChunks text ps).get ⟨i, hj⟩ =
      ((ps.get ⟨i, hi⟩).1, sliceVal text (ps.get ⟨i, hi⟩).2 (nextBound text ps i)) := by
  intro ps
  induction ps with
  | nil => intro i hi hj; exact absurd hi (by simp)
  | cons p rest ih =>
    intro i hi hj
    obtain ⟨k, s⟩ := p
    cases rest with
    | nil =>
      cases i with
      | zero => rfl
      | succ n =>
        simp only [List.length_cons, List.length_nil] at hi
        omega
    | cons q qs =>
      obtain ⟨k2, s2⟩ := q
      cases i with
      | zero =>
        have hz : (sliceChunks text ((k, s) :: (k2, s2) :: qs)).get ⟨0, hj⟩ =
            (k, sliceVal text s s2) := by
          simp [sliceChunks_cons_cons]
        rw [hz]
        simp [nextBound]
      | succ n =>
        have hn : n < ((k2, s2) :: qs).length := by simpa using hi
        have hn2 : n < (sliceChunks text ((k2, s2) :: qs)).length := by
          rw [sliceChunks_length]; exact hn
        have hstep := ih n hn hn2
        have hsz : (sliceChunks text ((k, s) :: (k2, s2) :: qs)).get ⟨n + 1, hj⟩ =
            (sliceChunks text ((k2, s2) :: qs)).get ⟨n, hn2⟩ := by
          simp [sliceChunks_cons_cons]
        rw [hsz, hstep]
        simp [nextBound, List.get_cons_succ, List.getElem?_cons_succ]

theorem lookup_of_nodup_get : ∀ (l : List (String × List Char)) (i : Nat) (hi : i < l.length),
    (l.map Prod.fst).Nodup →
    List.lookup (l.get ⟨i, hi⟩).1 l = some (l.get ⟨i, hi⟩).2 := by
  intro l
  induction l with
  | nil => intro i hi; exact absurd hi (by simp)
  | cons p rest ih =>
    intro i hi hnd
    obtain ⟨k, v⟩ := p
    rw [List.map_cons, List.nodup_cons] at hnd
    cases i with
    | zero => simp [List.lookup]
    | succ n =>
      have hn : n < rest.length := by simpa using hi
      have hmem : (rest.get ⟨n, hn⟩).1 ∈ rest.map Prod.fst :=
        List.mem_map_of_mem Prod.fst (rest.get_mem n hn)
      have hne : ((rest.get ⟨n, hn⟩).1 == k) = false := by
        apply beq_eq_false_iff_ne.mpr
        intro hEq
        exact hnd.1 (hEq ▸ hmem)
      simp only [List.get_cons_succ, List.lookup, hne]
      exact ih n hn hnd.2

theorem keyPositions_fst_sublist (t : List Char) :
    ((keyPositions t).map Prod.fst).Sublist DETAIL_KEYS := by
  have hgen : ∀ (ks : List String) (g : String → Option Nat),
      ((ks.filterMap (fun k => (g k).map (fun p => (k, p)))).map Prod.fst).Sublist ks := by
    intro ks g
    induction ks with
    | nil => simp
    | cons k rest ih =>
      simp only [List.filterMap_cons]
      cases hg : g k with
      | none => exact ih.cons k
      | some p =>
        simp only [Option.map_some', List.map_cons]
        exact ih.cons₂ k
  exact hgen DETAIL_KEYS _

theorem sortedKeyPositions_fst_nodup (t : List Char) :
    ((sortedKeyPositions t).map Prod.fst).Nodup := by
  have hperm : (sortedKeyPositions t).Perm (keyPositions t) := List.perm_insertionSort _ _
  have h1 : ((keyPositions t).map Prod.fst).Nodup :=
    (keyPositions_fst_sublist t).nodup (by decide)
  exact ((hperm.map Prod.fst).nodup_iff).mpr h1

instance : IsTotal (String × Nat) (fun a b => a.2 ≤ b.2) := ⟨fun a b => Nat.le_total a.2 b.2⟩

instance : IsTrans (String × Nat) (fun a b => a.2 ≤ b.2) := ⟨fun _ _ _ => Nat.le_trans⟩

theorem sortedKeyPositions_sorted (t : List Char) :
    List.Sorted (fun a b : String × Nat => a.2 ≤ b.2) (sortedKeyPositions t) :=
  List.sorted_insertionSort _ _

/-- C4 (amended): the found label offsets are processed in ascending
order (the sorted position list is sorted by offset, with the end
sentinel at the text length), and the i-th found label is mapped to the
slice of the normalised text from the end of its own line (taken as the
label's own start offset when no newline follows, so the label's final
line includes its own text) to the start of the next found label (or the
text's end), stripped, with the whitespace following each line-initial
bullet glyph normalised to one space, and stripped again. -/
theorem c4_amended_segmentation (t : List Char) (i : Nat)
    (hi : i < (sortedKeyPositions t).length) :
    List.Sorted (fun a b : String × Nat => a.2 ≤ b.2) (sortedKeyPositions t) ∧
    List.lookup ((sortedKeyPositions t).get ⟨i, hi⟩).1 (split_into_labeled_chunks t) =
      some (strip2 (bulletNorm (pyStripL
        (((segText t).drop (endOfLineIdx (segText t) ((sortedKeyPositions t).get ⟨i, hi⟩).2)).take
          (nextBound (segText t) (sortedKeyPositions t) i -
            endOfLineIdx (segText t) ((sortedKeyPositions t).get ⟨i, hi⟩).2))))) := by
  refine ⟨sortedKeyPositions_sorted t, ?_⟩
  have hlen : i < (split_into_labeled_chunks t).length := by
    rw [split_into_labeled_chunks, sliceChunks_length]; exact hi
  have hget2 : (split_into_labeled_chunks t).get ⟨i, hlen⟩ =
      (((sortedKeyPositions t).get ⟨i, hi⟩).1,
        sliceVal (segText t) ((sortedKeyPositions t).get ⟨i, hi⟩).2
          (nextBound (segText t) (sortedKeyPositions t) i)) :=
    sliceChunks_get (segText t) (sortedKeyPositions t) i hi hlen
  have hnodup : ((split_into_labeled_chunks t).map Prod.fst).Nodup := by
    rw [split_into_labeled_chunks, sliceChunks_map_fst]
    exact sortedKeyPositions_fst_nodup t
  have hlk := lookup_of_nodup_get (split_into_labeled_chunks t) i hlen hnodup
  rw [hget2] at hlk
  simpa [sliceVal] using hlk

/-- C4 (counterexample): the claim asserts the assigned value is the
text strictly between the end of the label's line and the next label
(or the end), trimmed.  When the label's line is the last line of the
text, the code instead slices from the label's start, so the label's own
text becomes its value; and a bullet inside a value has the whitespace
after the glyph rewritten, so the value is not merely trimmed. -/
theorem c4_counterexample :
    List.lookup "Description" (split_into_labeled_chunks "Description".data) =
      some "Description".data ∧
    some ("Description".data) ≠ some ([] : List Char) ∧
    List.lookup "Description"
      (split_into_labeled_chunks "Description\nfirst\n•abc\nOrganization\nz".data) =
      some "first\n• abc".data ∧
    "first\n• abc".data ≠ "first\n•abc".data := by
  refine ⟨by decide, by decide, by decide, by decide⟩

theorem c4_amended_segmentation_witness :
    0 < (sortedKeyPositions "Category\nfoo\nDescription\nbar".data).length ∧
    List.lookup "Category" (split_into_labeled_chunks "Category\nfoo\nDescription\nbar".data) =
      some "foo".data := by
  refine ⟨by decide, ?_⟩
  have h := (c4_amended_segmentation "Category\nfoo\nDescription\nbar".data 0 (by decide)).2
  exact h
/-! ## C8: deduplication -/

/-- Decimal decoding, the inverse of natToStr on its image. -/
def decodeDigits (l : List Char) : Nat :=
  l.foldl (fun acc c => 10 * acc + (c.toNat - 48)) 0

theorem decodeDigits_append (l : List Char) (d : Char) :
    decodeDigits (l ++ [d]) = 10 * decodeDigits l + (d.toNat - 48) := by
  simp [decodeDigits, List.foldl_append]

theorem digitChar_toNat (d : Nat) (h : d < 10) : (digitChar d).toNat - 48 = d := by
  interval_cases d <;> decide

theorem decode_natToStrAux : ∀ (f n : Nat), n ≤ f → decodeDigits (natToStrAux f n) = n := by
  intro f
  induction f with
  | zero =>
    intro n hn
    have h0 : n = 0 := Nat.le_zero.mp hn
    subst h0
    decide
  | succ f ih =>
    intro n hn
    by_cases h10 : n < 10
    · simp only [natToStrAux, h10, if_true]
      have h1 : decodeDigits [digitChar n] = (digitChar n).toNat - 48 := by
        simp [decodeDigits]
      rw [h1, digitChar_toNat n h10]
    · simp only [natToStrAux, h10, if_false]
      rw [decodeDigits_append]
      have hpos : 0 < n := by omega
      have hlt : n / 10 < n := Nat.div_lt_self hpos (by norm_num)
      have hrec : n / 10 ≤ f := by omega
      rw [ih (n / 10) hrec, digitChar_toNat (n % 10) (Nat.mod_lt n (by norm_num))]
      omega

theorem natToStr_inj (m n : Nat) (h : natToStr m = natToStr n) : m = n := by
  have hm : decodeDigits (natToStr m) = m := decode_natToStrAux m m le_rfl
  have hn : decodeDigits (natToStr n) = n := decode_natToStrAux n n le_rfl
  rw [← hm, ← hn, h]

/-- Does the string begin with the four characters of the synthetic-key
prefix used by the source? -/
def startsUNK (l : List Char) : Bool := l.take 4 == "UNK-".data

theorem startsUNK_unkKey (n : Nat) : startsUNK (unkKey n) = true := by
  have h4 : ("UNK-".data ++ natToStr n).take 4 = "UNK-".data := by
    rw [show (4 : Nat) = ("UNK-".data : List Char).length from rfl, List.take_left]
  simp [startsUNK, unkKey, h4]

theorem unkKey_inj (m n : Nat) (h : unkKey m = unkKey n) : m = n :=
  natToStr_inj m n (List.append_cancel_left h)

theorem dedupGo_eq_spec : ∀ (rs : List ProblemStatement) (seen : List (List Char))
    (acc : List ProblemStatement) (seenS : List (List Char)),
    (∀ r ∈ rs, startsUNK (dedupKeyReal r) = false) →
    (∀ s ∈ seen, (∃ m, m < acc.length ∧ s = unkKey m) ∨ (startsUNK s = false ∧ s ∈ seenS)) →
    (∀ s ∈ seenS, s ∈ seen) →
    dedupGo seen acc rs = acc ++ dedupSpecGo seenS rs := by
  intro rs
  induction rs with
  | nil => intro seen acc seenS h1 h2 h3; simp [dedupGo, dedupSpecGo]
  | cons r rs ih =>
    intro seen acc seenS h1 h2 h3
    have hr : startsUNK (dedupKeyReal r) = false := h1 r (by simp)
    have h1t : ∀ x ∈ rs, startsUNK (dedupKeyReal x) = false :=
      fun x hx => h1 x (by simp [hx])
    by_cases hk : (dedupKeyReal r).isEmpty = true
    · have hfresh : (seen.contains (unkKey acc.length)) = false := by
        by_contra hc
        rw [Bool.not_eq_false] at hc
        have hmem : unkKey acc.length ∈ seen := by simpa using hc
        rcases h2 _ hmem with ⟨m, hm, hEq⟩ | ⟨hs, _⟩
        · have := unkKey_inj _ _ hEq
          omega
        · rw [startsUNK_unkKey] at hs
          exact absurd hs (by simp)
      simp only [dedupGo, dedupSpecGo, hk, if_true, hfresh, Bool.false_eq_true, if_false]
      rw [ih (unkKey acc.length :: seen) (acc ++ [r]) seenS ?_ ?_ ?_]
      · simp
      · exact h1t
      · intro s hs
        rcases List.mem_cons.mp hs with rfl | hs2
        · exact Or.inl ⟨acc.length, by simp, rfl⟩
        · rcases h2 s hs2 with ⟨m, hm, hEq⟩ | hrest
          · exact Or.inl ⟨m, by simp; omega, hEq⟩
          · exact Or.inr hrest
      · intro s hs
        exact List.mem_cons_of_mem _ (h3 s hs)
    · have hkf : (dedupKeyReal r).isEmpty = false := by simpa using hk
      by_cases hc : dedupKeyReal r ∈ seenS
      · have hcSeen : seen.contains (dedupKeyReal r) = true := by
          simpa using h3 _ hc
        have hcS : seenS.contains (dedupKeyReal r) = true := by simpa using hc
        simp only [dedupGo, dedupSpecGo, hkf, Bool.false_eq_true, if_false, hcSeen, if_true, hcS]
        exact ih seen acc seenS h1t h2 h3
      · have hnSeen : seen.contains (dedupKeyReal r) = false := by
          by_contra hcc
          rw [Bool.not_eq_false] at hcc
          have hmem : dedupKeyReal r ∈ seen := by simpa using hcc
          rcases h2 _ hmem with ⟨m, _, hEq⟩ | ⟨_, hin⟩
          · rw [hEq, startsUNK_unkKey] at hr
            exact absurd hr (by simp)
          · exact hc hin
        have hcS : seenS.contains (dedupKeyReal r) = false := by
          by_contra hcc
          rw [Bool.not_eq_false] at hcc
          exact hc (by simpa using hcc)
        simp only [dedupGo, dedupSpecGo, hkf, Bool.false_eq_true, if_false, hnSeen, hcS]
        rw [ih (dedupKeyReal r :: seen) (acc ++ [r]) (dedupKeyReal r :: seenS) ?_ ?_ ?_]
        · simp
        · exact h1t
        · intro s hs
          rcases List.mem_cons.mp hs with rfl | hs2
          · exact Or.inr ⟨hr, by simp⟩
          · rcases h2 s hs2 with ⟨m, hm, hEq⟩ | ⟨ha, hb⟩
            · exact Or.inl ⟨m, by simp; omega, hEq⟩
            · exact Or.inr ⟨ha, by simp [hb]⟩
        · intro s hs
          rcases List.mem_cons.mp hs with rfl | hs2
          · exact List.mem_cons_self _ _
          · exact List.mem_cons_of_mem _ (h3 s hs2)

theorem keyless_mem_dedupSpecGo : ∀ (rs : List ProblemStatement) (seenS : List (List Char))
    (r : ProblemStatement), r ∈ rs → (dedupKeyReal r).isEmpty = true →
    r ∈ dedupSpecGo seenS rs := by
  intro rs
  induction rs with
  | nil => intro seenS r h; exact absurd h (List.not_mem_nil r)
  | cons x xs ih =>
    intro seenS r hmem hk
    rcases List.mem_cons.mp hmem with rfl | hmem2
    · simp [dedupSpecGo, hk]
    · by_cases hx : (dedupKeyReal x).isEmpty = true
      · simp only [dedupSpecGo, hx, if_true]
        exact List.mem_cons_of_mem x (ih seenS r hmem2 hk)
      · have hxf : (dedupKeyReal x).isEmpty = false := by simpa using hx
        by_cases hc : (seenS.contains (dedupKeyReal x)) = true
        · simp only [dedupSpecGo, hxf, Bool.false_eq_true, if_false, hc, if_true]
          exact ih seenS r hmem2 hk
        · have hcf : (seenS.contains (dedupKeyReal x)) = false := by simpa using hc
          simp only [dedupSpecGo, hxf, Bool.false_eq_true, if_false, hcf]
          exact List.mem_cons_of_mem x (ih _ r hmem2 hk)

/-- C8 (amended): provided no record's identifier or short code, once
stripped, begins with the four characters of the synthetic-key marker,
the deduplication loop outputs exactly the subsequence that keeps the
first record for each identity key, in order, where keyless records are
always kept (each receives a fresh synthetic key); in particular two
records sharing a non-empty identifier collapse to the first and two
keyless records are never merged with each other. -/
theorem c8_amended_dedup (rs : List ProblemStatement)
    (h : ∀ r ∈ rs, startsUNK (dedupKeyReal r) = false) :
    dedupCode rs = dedupSpec rs ∧
    (∀ r ∈ rs, (dedupKeyReal r).isEmpty = true → r ∈ dedupCode rs) := by
  have hmain : dedupCode rs = dedupSpec rs := by
    rw [dedupCode, dedupSpec]
    have hgo := dedupGo_eq_spec rs [] [] [] h
      (fun s hs => absurd hs (List.not_mem_nil s))
      (fun s hs => absurd hs (List.not_mem_nil s))
    simpa using hgo
  refine ⟨hmain, fun r hr hk => ?_⟩
  rw [hmain, dedupSpec]
  exact keyless_mem_dedupSpecGo rs [] r hr hk

def cexA : ProblemStatement :=
  { problem_statement_id := some "UNK-1".data, problem_statement_title := some "a".data }

def cexB : ProblemStatement :=
  { problem_statement_title := some "b".data }

/-- C8 (counterexample): the synthetic key is interpolated from the
length of the output accumulated so far, and nothing separates it from
real identifiers, so a record whose literal identifier is UNK-1 poisons
the key of a later keyless record: the keyless record is merged away
although no earlier record shares its (absent) identity, contradicting
the claimed keep-first-per-key behaviour. -/
theorem c8_counterexample :
    dedupCode [cexA, cexB] = [cexA] ∧
    cexB ∉ dedupCode [cexA, cexB] ∧
    (dedupKeyReal cexB).isEmpty = true ∧
    dedupSpec [cexA, cexB] = [cexA, cexB] :=
  ⟨by decide, by decide, by decide, by decide⟩

def wrA : ProblemStatement :=
  { problem_statement_id := some "25001".data, problem_statement_title := some "a".data }

def wrB : ProblemStatement :=
  { problem_statement_id := some "25001".data, problem_statement_title := some "b".data }

def wrC : ProblemStatement :=
  { problem_statement_title := some "c".data }

theorem c8_amended_dedup_witness :
    (∀ r ∈ [wrA, wrB, wrC], startsUNK (dedupKeyReal r) = false) ∧
    dedupCode [wrA, wrB, wrC] = dedupSpec [wrA, wrB, wrC] ∧
    dedupCode [wrA, wrB, wrC] = [wrA, wrC] ∧
    wrC ∈ dedupCode [wrA, wrB, wrC] :=
  ⟨by decide, (c8_amended_dedup _ (by decide)).1, by decide,
   (c8_amended_dedup _ (by decide)).2 wrC (by simp) (by decide)⟩
/-! ## C7: found labels on adjacent lines, offsets in the joined text -/

theorem firstIdxA_shift (key : List Char) : ∀ (L : List (List Char)) (n : Nat),
    firstIdxA key n L = (firstIdxA key 0 L).map (fun j => n + j) := by
  intro L
  induction L with
  | nil => intro n; rfl
  | cons l ls ih =>
    intro n
    by_cases h : ciEqL l key = true
    · simp [firstIdxA, h]
    · simp only [firstIdxA, h, Bool.false_eq_true, if_false]
      rw [ih (n + 1), ih 1]
      cases firstIdxA key 0 ls with
      | none => rfl
      | some j => simp only [Option.map_some', Option.some.injEq]; omega

theorem labelPosAux_eq_offAt (key : List Char) : ∀ (L : List (List Char)) (off : Nat),
    labelPosAux key off L = (firstIdxA key 0 L).map (fun j => off + offAt L j) := by
  intro L
  induction L with
  | nil => intro off; rfl
  | cons l ls ih =>
    intro off
    by_cases h : ciEqL l key = true
    · simp [labelPosAux, firstIdxA, h, offAt]
    · simp only [labelPosAux, firstIdxA, h, Bool.false_eq_true, if_false]
      rw [ih (off + l.length + 1), firstIdxA_shift key ls 1]
      cases firstIdxA key 0 ls with
      | none => rfl
      | some j =>
        simp only [Option.map_some', Option.some.injEq]
        rw [show (1 : Nat) + j = j + 1 from Nat.add_comm 1 j]
        simp only [offAt]
        omega

theorem firstIdxA_some : ∀ (L : List (List Char)) (key : List Char) (i : Nat),
    firstIdxA key 0 L = some i →
    ∃ h : i < L.length, ciEqL (L.get ⟨i, h⟩) key = true := by
  intro L
  induction L with
  | nil => intro key i h; exact absurd h (by simp [firstIdxA])
  | cons l ls ih =>
    intro key i h
    by_cases hc : ciEqL l key = true
    · simp only [firstIdxA, hc, if_true, Option.some.injEq] at h
      subst h
      exact ⟨by simp, hc⟩
    · simp only [firstIdxA, hc, Bool.false_eq_true, if_false] at h
      rw [firstIdxA_shift key ls 1] at h
      cases he : firstIdxA key 0 ls with
      | none => rw [he] at h; exact absurd h (by simp)
      | some j =>
        rw [he] at h
        simp only [Option.map_some', Option.some.injEq] at h
        obtain ⟨hj, hcj⟩ := ih key j he
        have hij : i = j + 1 := by omega
        subst hij
        exact ⟨by simpa using Nat.succ_lt_succ hj, hcj⟩

theorem offAt_lt_offAt : ∀ (L : List (List Char)) (i j : Nat), i < j → j < L.length →
    offAt L i < offAt L j := by
  intro L
  induction L with
  | nil => intro i j h1 h2; simp at h2
  | cons l ls ih =>
    intro i j h1 h2
    cases j with
    | zero => omega
    | succ m =>
      cases i with
      | zero =>
        simp only [offAt]
        omega
      | succ n =>
        simp only [offAt]
        have := ih n m (by omega) (by simpa using h2)
        omega

theorem offAt_le_offAt (L : List (List Char)) (i j : Nat) (h1 : i ≤ j) (h2 : j < L.length) :
    offAt L i ≤ offAt L j := by
  rcases Nat.lt_or_ge i j with h | h
  · exact Nat.le_of_lt (offAt_lt_offAt L i j h h2)
  · have : i = j := by omega
    subst this
    exact Nat.le_refl _

theorem offAt_inj (L : List (List Char)) (i j : Nat) (hi : i < L.length) (hj : j < L.length)
    (h : offAt L i = offAt L j) : i = j := by
  rcases Nat.lt_trichotomy i j with hlt | heq | hgt
  · have := offAt_lt_offAt L i j hlt hj; omega
  · exact heq
  · have := offAt_lt_offAt L j i hgt hi; omega

theorem offAt_succ : ∀ (L : List (List Char)) (i : Nat) (h : i < L.length),
    offAt L (i + 1) = offAt L i + (L.get ⟨i, h⟩).length + 1 := by
  intro L
  induction L with
  | nil => intro i h; simp at h
  | cons l ls ih =>
    intro i h
    cases i with
    | zero => simp [offAt]
    | succ n =>
      simp only [offAt, List.get_cons_succ]
      rw [ih n (by simpa using h)]
      omega

theorem joinNl_cons_of_ne_nil (l : List Char) (ls : List (List Char)) (h : ls ≠ []) :
    joinNl (l :: ls) = l ++ '\n' :: joinNl ls := by
  cases ls with
  | nil => exact absurd rfl h
  | cons a as => rfl

theorem joinNl_drop : ∀ (L : List (List Char)) (i : Nat), i < L.length →
    (joinNl L).drop (offAt L i) = joinNl (L.drop i) := by
  intro L
  induction L with
  | nil => intro i h; simp at h
  | cons l ls ih =>
    intro i h
    cases i with
    | zero => simp [offAt]
    | succ n =>
      have hn : n < ls.length := by simpa using h
      have hne : ls ≠ [] := by
        intro hemp
        rw [hemp] at hn
        simp at hn
      rw [joinNl_cons_of_ne_nil l ls hne]
      simp only [offAt, List.drop_succ_cons]
      rw [show l.length + 1 + offAt ls n = l.length + (1 + offAt ls n) by omega]
      rw [List.drop_append]
      rw [show (1 : Nat) + offAt ls n = offAt ls n + 1 by omega]
      rw [List.drop_succ_cons]
      exact ih n hn

/-! ## Slices between adjacent lines -/

theorem splitNl_no_nl : ∀ (t : List Char) (l : List Char), l ∈ splitNl t → '\n' ∉ l := by
  intro t
  induction t with
  | nil =>
    intro l h
    simp only [splitNl, List.mem_singleton] at h
    subst h
    simp
  | cons c cs ih =>
    intro l h
    by_cases hc : c = '\n'
    · subst hc
      rw [splitNl, if_pos rfl] at h
      rcases List.mem_cons.mp h with rfl | h2
      · simp
      · exact ih l h2
    · rw [splitNl, if_neg hc] at h
      cases hsp : splitNl cs with
      | nil =>
        rw [hsp] at h
        simp only [List.mem_singleton] at h
        subst h
        intro hmem
        simp only [List.mem_singleton] at hmem
        exact hc hmem.symm
      | cons m ms =>
        rw [hsp] at h
        rcases List.mem_cons.mp h with rfl | h2
        · intro hmem
          rcases List.mem_cons.mp hmem with h3 | h3
          · exact hc h3.symm
          · exact ih m (by rw [hsp]; simp) h3
        · exact ih l (by rw [hsp]; simp [h2])

theorem mem_of_mem_pyStripL (l : List Char) (c : Char) (h : c ∈ pyStripL l) : c ∈ l := by
  rw [pyStripL, List.mem_reverse] at h
  have h1 : c ∈ (l.dropWhile isPyWS).reverse := (List.dropWhile_sublist _).subset h
  rw [List.mem_reverse] at h1
  exact (List.dropWhile_sublist _).subset h1

theorem normLines_no_nl (t : List Char) (l : List Char) (h : l ∈ normLines t) : '\n' ∉ l := by
  rcases mem_normLines t l h with ⟨l0, hl0, rfl⟩
  intro hmem
  exact splitNl_no_nl t l0 hl0 (mem_of_mem_pyStripL l0 '\n' hmem)

theorem findIdx_nl_append_aux : ∀ (l : List Char) (rest : List Char) (k : Nat), '\n' ∉ l →
    List.findIdx? (fun c => c == '\n') (l ++ '\n' :: rest) k = some (k + l.length) := by
  intro l
  induction l with
  | nil =>
    intro rest k h
    rw [List.nil_append, List.findIdx?_cons]
    simp
  | cons c cs ih =>
    intro rest k h
    have hc : (c == '\n') = false := by
      apply beq_eq_false_iff_ne.mpr
      intro hEq
      exact h (by simp [hEq])
    rw [List.cons_append, List.findIdx?_cons, hc]
    simp only [Bool.false_eq_true, if_false]
    rw [ih rest (k + 1) (fun hm => h (by simp [hm]))]
    simp only [List.length_cons, Option.some.injEq]
    omega

theorem findIdx_nl_append (l : List Char) (rest : List Char) (h : '\n' ∉ l) :
    (l ++ '\n' :: rest).findIdx? (fun c => c == '\n') = some l.length := by
  have := findIdx_nl_append_aux l rest 0 h
  simpa using this

theorem sliceVal_adjacent (L : List (List Char)) (i : Nat) (h : i + 1 < L.length)
    (hnl : ∀ l ∈ L, '\n' ∉ l) :
    sliceVal (joinNl L) (offAt L i) (offAt L (i + 1)) = [] := by
  have hi : i < L.length := by omega
  have hdrop := joinNl_drop L i hi
  have hcons : L.drop i = L.get ⟨i, hi⟩ :: L.drop (i + 1) := List.drop_eq_getElem_cons hi
  have hne : L.drop (i + 1) ≠ [] := by
    intro hemp
    have := congrArg List.length hemp
    simp at this
    omega
  have hjoin : joinNl (L.drop i) = L.get ⟨i, hi⟩ ++ '\n' :: joinNl (L.drop (i + 1)) := by
    rw [hcons, joinNl_cons_of_ne_nil _ _ hne]
  have heol : endOfLineIdx (joinNl L) (offAt L i) = offAt L i + (L.get ⟨i, hi⟩).length := by
    rw [endOfLineIdx, hdrop, hjoin, findIdx_nl_append _ _ (hnl _ (L.get_mem i hi))]
  have hdroptext : (joinNl L).drop (offAt L i + (L.get ⟨i, hi⟩).length) =
      '\n' :: joinNl (L.drop (i + 1)) := by
    rw [← List.drop_drop]
    rw [hdrop, hjoin]
    rw [List.drop_left]
  have harith : offAt L (i + 1) - (offAt L i + (L.get ⟨i, hi⟩).length) = 1 := by
    rw [offAt_succ L i hi]
    omega
  rw [sliceVal, heol, harith, hdroptext]
  rfl

/-! ## Positions of found labels -/

theorem keyPositions_mem_char (t : List Char) (c : String) (p : Nat)
    (h : (c, p) ∈ keyPositions t) :
    c ∈ DETAIL_KEYS ∧ ∃ j, firstLineIdx c.data (normLines t) = some j ∧
      p = offAt (normLines t) j := by
  rw [keyPositions] at h
  rcases List.mem_filterMap.mp h with ⟨k, hk, hmap⟩
  cases he : labelPosAux k.data 0 (normLines t) with
  | none => rw [he] at hmap; simp at hmap
  | some q =>
    rw [he] at hmap
    simp only [Option.map_some', Option.some.injEq, Prod.mk.injEq] at hmap
    obtain ⟨hkc, hqp⟩ := hmap
    subst hkc
    rw [labelPosAux_eq_offAt] at he
    cases hf : firstIdxA k.data 0 (normLines t) with
    | none => rw [hf] at he; simp at he
    | some j =>
      rw [hf] at he
      simp only [Option.map_some', Option.some.injEq] at he
      refine ⟨hk, j, hf, ?_⟩
      omega

theorem keyPositions_mem_of_first (t : List Char) (a : String) (i : Nat)
    (ha : a ∈ DETAIL_KEYS) (h : firstLineIdx a.data (normLines t) = some i) :
    (a, offAt (normLines t) i) ∈ keyPositions t := by
  rw [keyPositions]
  apply List.mem_filterMap.mpr
  refine ⟨a, ha, ?_⟩
  rw [labelPosAux_eq_offAt]
  rw [show firstIdxA a.data 0 (normLines t) = some i from h]
  simp

theorem keys_lower_inj : ∀ k1 ∈ DETAIL_KEYS, ∀ k2 ∈ DETAIL_KEYS,
    k1.data.map lowerChar = k2.data.map lowerChar → k1 = k2 := by decide

theorem ciEqL_maps (l k : List Char) (h : ciEqL l k = true) :
    l.map lowerChar = k.map lowerChar := by
  rw [ciEqL] at h
  exact beq_iff_eq.mp h

theorem keyPositions_snd_inj (t : List Char) :
    ∀ e1 ∈ keyPositions t, ∀ e2 ∈ keyPositions t, e1.2 = e2.2 → e1 = e2 := by
  intro e1 h1 e2 h2 hsnd
  obtain ⟨c1, p1⟩ := e1
  obtain ⟨c2, p2⟩ := e2
  obtain ⟨hk1, j1, hf1, hp1⟩ := keyPositions_mem_char t c1 p1 h1
  obtain ⟨hk2, j2, hf2, hp2⟩ := keyPositions_mem_char t c2 p2 h2
  obtain ⟨hlt1, hci1⟩ := firstIdxA_some _ _ _ hf1
  obtain ⟨hlt2, hci2⟩ := firstIdxA_some _ _ _ hf2
  simp only at hsnd
  have hj : j1 = j2 := by
    apply offAt_inj (normLines t) j1 j2 hlt1 hlt2
    omega
  subst hj
  have hline : c1.data.map lowerChar = c2.data.map lowerChar := by
    have e1 := ciEqL_maps _ _ hci1
    have e2 := ciEqL_maps _ _ hci2
    rw [← e1, e2]
  have hc : c1 = c2 := keys_lower_inj c1 hk1 c2 hk2 hline
  subst hc
  simp only [Prod.mk.injEq, true_and]
  omega

theorem keyPositions_snd_nodup (t : List Char) :
    ((keyPositions t).map Prod.snd).Nodup := by
  rw [List.Nodup, List.pairwise_map]
  have hfst : List.Pairwise (fun a b : String × Nat => a.1 ≠ b.1) (keyPositions t) := by
    have hnd := (keyPositions_fst_sublist t).nodup (by decide)
    rw [List.Nodup, List.pairwise_map] at hnd
    exact hnd
  apply List.Pairwise.imp_of_mem ?_ hfst
  intro a b ha hb hne hsndeq
  exact hne (congrArg Prod.fst (keyPositions_snd_inj t a ha b hb hsndeq))

/-! ## Adjacency in the sorted position list -/

theorem sorted_pair_adjacent : ∀ (l : List (String × Nat)) (x y : String × Nat),
    List.Sorted (fun a b : String × Nat => a.2 ≤ b.2) l →
    ((l.map Prod.snd).Nodup) →
    x ∈ l → y ∈ l → x.2 < y.2 →
    (∀ z ∈ l, z.2 ≤ x.2 ∨ y.2 ≤ z.2) →
    ∃ l1 l2, l = l1 ++ x :: y :: l2 := by
  intro l
  induction l with
  | nil => intro x y _ _ hx; exact absurd hx (List.not_mem_nil x)
  | cons a rest ih =>
    intro x y hsort hnd hx hy hlt hgap
    rw [List.sorted_cons] at hsort
    rw [List.map_cons, List.nodup_cons] at hnd
    by_cases hax : a = x
    · subst hax
      have hyr : y ∈ rest := by
        rcases List.mem_cons.mp hy with h2 | h2
        · rw [h2] at hlt; omega
        · exact h2
      cases rest with
      | nil => exact absurd hyr (List.not_mem_nil y)
      | cons b bs =>
        have hb : b = y := by
          have hble : a.2 ≤ b.2 := hsort.1 b (by simp)
          rcases hgap b (by simp) with hle | hge
          · have hba : b.2 = a.2 := by omega
            have hmem : b.2 ∈ (b :: bs).map Prod.snd := by simp
            rw [hba] at hmem
            exact absurd hmem hnd.1
          · rcases List.mem_cons.mp hyr with h2 | hybs
            · exact h2.symm
            · have hby2 : b.2 ≤ y.2 := (List.sorted_cons.mp hsort.2).1 y hybs
              have hby : b.2 = y.2 := by omega
              have hmem : y.2 ∈ bs.map Prod.snd := List.mem_map_of_mem _ hybs
              rw [← hby] at hmem
              rw [List.map_cons, List.nodup_cons] at hnd
              exact absurd hmem hnd.2.1
        subst hb
        exact ⟨[], bs, rfl⟩
    · have hxr : x ∈ rest := by
        rcases List.mem_cons.mp hx with h2 | h2
        · exact absurd h2.symm hax
        · exact h2
      have hyr : y ∈ rest := by
        rcases List.mem_cons.mp hy with h2 | h2
        · have := hsort.1 x hxr
          rw [h2] at hlt
          omega
        · exact h2
      obtain ⟨l1, l2, hdecomp⟩ := ih x y hsort.2 hnd.2 hxr hyr hlt
        (fun z hz => hgap z (by simp [hz]))
      exact ⟨a :: l1, l2, by rw [List.cons_append, hdecomp]⟩

theorem getq_of_decomp : ∀ (l1 : List (String × Nat)) (x y : String × Nat)
    (l2 : List (String × Nat)),
    (l1 ++ x :: y :: l2)[l1.length]? = some x ∧
    (l1 ++ x :: y :: l2)[l1.length + 1]? = some y := by
  intro l1
  induction l1 with
  | nil => intro x y l2; constructor <;> simp
  | cons q l1 ih =>
    intro x y l2
    obtain ⟨h2, h3⟩ := ih x y l2
    constructor
    · rw [List.cons_append, List.length_cons, List.getElem?_cons_succ]
      exact h2
    · rw [List.cons_append, List.length_cons, List.getElem?_cons_succ]
      exact h3

/-- C7 (amended): when two vocabulary labels are anchored by the
segmenter at consecutive lines (their first case-insensitive
occurrences, which are the offsets the segmenter records, lie on lines i
and i+1), the earlier label is present in the output mapping with the
empty string as its value. -/
theorem c7_amended_empty_value (t : List Char) (a b : String) (i : Nat)
    (ha : a ∈ DETAIL_KEYS) (hb : b ∈ DETAIL_KEYS)
    (hia : firstLineIdx a.data (normLines t) = some i)
    (hib : firstLineIdx b.data (normLines t) = some (i + 1)) :
    List.lookup a (split_into_labeled_chunks t) = some [] := by
  obtain ⟨hltb, hcib⟩ := firstIdxA_some (normLines t) b.data (i + 1) hib
  have hlta : i < (normLines t).length := by omega
  have hma : (a, offAt (normLines t) i) ∈ keyPositions t :=
    keyPositions_mem_of_first t a i ha hia
  have hmb : (b, offAt (normLines t) (i + 1)) ∈ keyPositions t :=
    keyPositions_mem_of_first t b (i + 1) hb hib
  have hperm : (sortedKeyPositions t).Perm (keyPositions t) := List.perm_insertionSort _ _
  have hma2 : (a, offAt (normLines t) i) ∈ sortedKeyPositions t := hperm.mem_iff.mpr hma
  have hmb2 : (b, offAt (normLines t) (i + 1)) ∈ sortedKeyPositions t := hperm.mem_iff.mpr hmb
  have hlt : offAt (normLines t) i < offAt (normLines t) (i + 1) :=
    offAt_lt_offAt _ i (i + 1) (by omega) hltb
  have hgap : ∀ z ∈ sortedKeyPositions t,
      z.2 ≤ (a, offAt (normLines t) i).2 ∨ (b, offAt (normLines t) (i + 1)).2 ≤ z.2 := by
    intro z hz
    obtain ⟨c, p⟩ := z
    obtain ⟨hc, j, hfj, hpj⟩ := keyPositions_mem_char t c p (hperm.mem_iff.mp hz)
    obtain ⟨hjlt, hcij⟩ := firstIdxA_some _ _ _ hfj
    rcases le_or_lt j i with hj | hj
    · left
      calc (c, p).2 = p := rfl
        _ = offAt (normLines t) j := hpj
        _ ≤ offAt (normLines t) i := offAt_le_offAt _ j i hj hlta
    · right
      calc (b, offAt (normLines t) (i + 1)).2 = offAt (normLines t) (i + 1) := rfl
        _ ≤ offAt (normLines t) j := offAt_le_offAt _ (i + 1) j hj hjlt
        _ = p := hpj.symm
  have hsnd : ((sortedKeyPositions t).map Prod.snd).Nodup :=
    ((hperm.map Prod.snd).nodup_iff).mpr (keyPositions_snd_nodup t)
  obtain ⟨l1, l2, hdec⟩ := sorted_pair_adjacent (sortedKeyPositions t)
    (a, offAt (normLines t) i) (b, offAt (normLines t) (i + 1))
    (sortedKeyPositions_sorted t) hsnd hma2 hmb2 hlt hgap
  have hq := getq_of_decomp l1 (a, offAt (normLines t) i) (b, offAt (normLines t) (i + 1)) l2
  rw [← hdec] at hq
  obtain ⟨hq1, hq2⟩ := hq
  have hilen : l1.length < (sortedKeyPositions t).length := by
    rw [hdec]
    simp only [List.length_append, List.length_cons]
    omega
  have hget : (sortedKeyPositions t).get ⟨l1.length, hilen⟩ = (a, offAt (normLines t) i) := by
    have he : (sortedKeyPositions t)[l1.length]? =
        some ((sortedKeyPositions t).get ⟨l1.length, hilen⟩) := by
      rw [List.getElem?_eq_getElem hilen, List.get_eq_getElem]
    rw [he] at hq1
    exact Option.some.inj hq1
  have hnb : nextBound (segText t) (sortedKeyPositions t) l1.length =
      offAt (normLines t) (i + 1) := by
    simp only [nextBound, hq2]
  have hlen2 : l1.length < (split_into_labeled_chunks t).length := by
    rw [split_into_labeled_chunks, sliceChunks_length]
    exact hilen
  have h0 := sliceChunks_get (segText t) (sortedKeyPositions t) l1.length hilen hlen2
  have hgetc : (split_into_labeled_chunks t).get ⟨l1.length, hlen2⟩ =
      (a, sliceVal (segText t) (offAt (normLines t) i) (offAt (normLines t) (i + 1))) := by
    rw [show (split_into_labeled_chunks t).get ⟨l1.length, hlen2⟩ =
      (sliceChunks (segText t) (sortedKeyPositions t)).get ⟨l1.length, hlen2⟩ from rfl]
    rw [h0, hget, hnb]
  have hnodup : ((split_into_labeled_chunks t).map Prod.fst).Nodup := by
    rw [split_into_labeled_chunks, sliceChunks_map_fst]
    exact sortedKeyPositions_fst_nodup t
  have hlk := lookup_of_nodup_get (split_into_labeled_chunks t) l1.length hlen2 hnodup
  rw [hgetc] at hlk
  have hnl : ∀ l ∈ normLines t, '\n' ∉ l := fun l hl => normLines_no_nl t l hl
  have hsv : sliceVal (segText t) (offAt (normLines t) i) (offAt (normLines t) (i + 1)) = [] := by
    rw [show segText t = joinNl (normLines t) from rfl]
    exact sliceVal_adjacent (normLines t) i hltb hnl
  rw [show List.lookup a (split_into_labeled_chunks t) =
    List.lookup (a, sliceVal (segText t) (offAt (normLines t) i)
      (offAt (normLines t) (i + 1))).1 (split_into_labeled_chunks t) from rfl]
  rw [hlk, hsv]

/-- C7 (counterexample): the claim quantifies over any appearance of
two labels on consecutive lines.  When the earlier label also occurs
earlier in the block, the segmenter anchors it at that first occurrence,
and the value is the text from there, not the empty string: in this
block Category and Theme stand on consecutive lines, yet Category maps
to a non-empty value. -/
theorem c7_counterexample :
    ciEqL ((normLines "Category\nfoo\nCategory\nTheme\nx".data).get ⟨2, by decide⟩)
      "Category".data = true ∧
    ciEqL ((normLines "Category\nfoo\nCategory\nTheme\nx".data).get ⟨3, by decide⟩)
      "Theme".data = true ∧
    List.lookup "Category" (split_into_labeled_chunks "Category\nfoo\nCategory\nTheme\nx".data) =
      some "foo\nCategory".data ∧
    "foo\nCategory".data ≠ ([] : List Char) :=
  ⟨by decide, by decide, by decide, by decide⟩

theorem c7_amended_empty_value_witness :
    firstLineIdx "Category".data (normLines "Category\nTheme\nrest".data) = some 0 ∧
    firstLineIdx "Theme".data (normLines "Category\nTheme\nrest".data) = some 1 ∧
    List.lookup "Category" (split_into_labeled_chunks "Category\nTheme\nrest".data) = some [] :=
  ⟨by decide, by decide,
   c7_amended_empty_value "Category\nTheme\nrest".data "Category" "Theme" 0
     (by decide) (by decide) (by decide) (by decide)⟩
